import Mathlib

/-!
Verification of the paras_inherent sanitization and limiting pipeline.

The staged repository sources contain the pipeline tests
(polkadot/runtime/parachains/src/paras_inherent/tests.rs) but not the
pipeline implementation itself, so the definitions below are modelled from
the specification of the pipeline (weight accountant, dispute sanitizer and
limiter, bitfield sanitizer, candidate sanitizer, admission controller),
with the behavior the staged tests pin down taken as authoritative where
the tests exercise it.
-/

namespace ParasInherent

/-- Modelled from the spec: a two-dimensional cost, an ordered pair of
execution-time units and proof-size bytes, partially ordered componentwise. -/
structure Weight where
  ref_time : Nat
  proof_size : Nat
deriving DecidableEq

instance : Add Weight :=
  ⟨fun a b => ⟨a.ref_time + b.ref_time, a.proof_size + b.proof_size⟩⟩

instance : LE Weight :=
  ⟨fun a b => a.ref_time ≤ b.ref_time ∧ a.proof_size ≤ b.proof_size⟩

instance decWeightLe : (a b : Weight) → Decidable (a ≤ b) := fun a b =>
  inferInstanceAs (Decidable (a.ref_time ≤ b.ref_time ∧ a.proof_size ≤ b.proof_size))

/-- Modelled from the spec: a dispute statement set carries a session index,
a candidate hash and a collection of statements (kept abstract as a count,
enough for the weight accountant to price the set). -/
structure DisputeStatementSet where
  session : Nat
  candidate_hash : Nat
  statements : Nat
deriving DecidableEq

/-- Modelled from the spec: an availability bitfield submission before
verification, one bit per core, a claimed validator index and an abstract
signature token (low-level signature primitives are out of scope). -/
structure UncheckedBitfield where
  bits : List Bool
  validator_index : Nat
  signature : Nat
deriving DecidableEq

/-- Modelled from the spec: a backed candidate with its para id, candidate
hash, optional explicit core-index tag (honoured only when core-index
tagging is active) and the validator indices of its backing votes. -/
structure BackedCandidate where
  para_id : Nat
  candidate_hash : Nat
  core_tag : Option Nat
  votes : List Nat
deriving DecidableEq

/-- Modelled from the spec: the one inherent payload, an ordered sequence of
signed bitfields, of backed candidates and of dispute statement sets. -/
structure ParachainsInherentData where
  bitfields : List UncheckedBitfield
  backed_candidates : List BackedCandidate
  disputes : List DisputeStatementSet
deriving DecidableEq

/-- Modelled from the spec: the assignment-based per-record cost functions
the weight accountant sums; both authoring and validating paths use the
same functions. -/
structure WeightModel where
  disputeW : DisputeStatementSet → Weight
  disputeLen : DisputeStatementSet → Nat
  bitfieldW : UncheckedBitfield → Weight
  bitfieldLen : UncheckedBitfield → Nat
  candidateW : BackedCandidate → Weight
  candidateLen : BackedCandidate → Nat

/-- Modelled from the spec: the immutable per-block ceilings, one for each
weight axis and one for raw encoded byte length. -/
structure Limits where
  maxWeight : Weight
  maxLen : Nat

/-- Modelled from the spec: the read-only snapshot of chain state one
invocation of the pipeline consults (current session, disputed-core mask,
expected bit count, active validator keys, signature oracle, concluded
invalid predicate, schedule, core-index mode, disabled validators and the
minimum-backing-votes threshold). -/
structure Context where
  currentSession : Nat
  disputedBitfield : List Bool
  expectedBits : Nat
  validators : List Nat
  checkSig : UncheckedBitfield → Nat → Bool
  concludedInvalid : BackedCandidate → Bool
  scheduledParas : List (Nat × List Nat)
  coreIndexEnabled : Bool
  disabledValidators : List Nat
  minimumBackingVotes : Nat

/-- Modelled from the spec: the weight accountant totals the per-record
costs of an ordered sequence of records. -/
def sumWeights {α : Type} (w : α → Weight) (l : List α) : Weight :=
  l.foldr (fun x acc => w x + acc) ⟨0, 0⟩

/-- Modelled from the spec: the weight accountant totals the per-record
encoded lengths of an ordered sequence of records. -/
def sumLens {α : Type} (g : α → Nat) (l : List α) : Nat :=
  l.foldr (fun x acc => g x + acc) 0

/-- Modelled from the spec: total weight of a sequence of dispute sets. -/
def multi_dispute_statement_sets_weight (wm : WeightModel)
    (l : List DisputeStatementSet) : Weight :=
  sumWeights wm.disputeW l

/-- Modelled from the spec: total weight of a sequence of bitfields. -/
def signed_bitfields_weight (wm : WeightModel) (l : List UncheckedBitfield) : Weight :=
  sumWeights wm.bitfieldW l

/-- Modelled from the spec: total weight of a sequence of backed candidates. -/
def backed_candidates_weight (wm : WeightModel) (l : List BackedCandidate) : Weight :=
  sumWeights wm.candidateW l

/-- Modelled from the spec: the total weight of one inherent payload, the sum
of its dispute, bitfield and backed candidate weights. -/
def paras_inherent_total_weight (wm : WeightModel) (d : ParachainsInherentData) : Weight :=
  multi_dispute_statement_sets_weight wm d.disputes +
    signed_bitfields_weight wm d.bitfields +
    backed_candidates_weight wm d.backed_candidates

/-- Modelled from the spec: the total encoded byte length of one inherent
payload. -/
def paras_inherent_total_len (wm : WeightModel) (d : ParachainsInherentData) : Nat :=
  sumLens wm.disputeLen d.disputes + sumLens wm.bitfieldLen d.bitfields +
    sumLens wm.candidateLen d.backed_candidates

/-- Modelled from the spec: rule 1 of the dispute sanitizer, the hard filter
dropping every set whose session exceeds the current session, not subject to
weight pressure. -/
def filter_future_disputes (current : Nat) (l : List DisputeStatementSet) :
    List DisputeStatementSet :=
  l.filter (fun d => decide (d.session ≤ current))

/-- Modelled from the spec: one step of the stable sort placing a dispute set
before the first set with session not smaller, so surviving sets end up in
ascending session order, oldest first, ties keeping submission order. -/
def insertBySession (d : DisputeStatementSet) :
    List DisputeStatementSet → List DisputeStatementSet
  | [] => [d]
  | x :: xs =>
    if d.session ≤ x.session then d :: x :: xs else x :: insertBySession d xs

/-- Modelled from the spec: rule 2 of the dispute sanitizer, the stable sort
of surviving sets by ascending session index. -/
def sortBySession (l : List DisputeStatementSet) : List DisputeStatementSet :=
  l.foldr insertBySession []

/-- Modelled from the spec: greedy budget fitting, accepting records in order
while the running weight and length totals stay within the ceilings and
rejecting the remainder, starting from the already consumed totals. -/
def fitUnder {α : Type} (w : α → Weight) (g : α → Nat) (maxW : Weight) (maxL : Nat) :
    Weight → Nat → List α → List α
  | _, _, [] => []
  | accW, accL, x :: xs =>
    if accW + w x ≤ maxW ∧ accL + g x ≤ maxL then
      x :: fitUnder w g maxW maxL (accW + w x) (accL + g x) xs
    else []

/-- Modelled from the spec: whether a bitfield payload has a set bit on a
core marked in the disputed-core mask. -/
def hasDisputedBit (bits disputed : List Bool) : Bool :=
  (List.zip bits disputed).any (fun p => p.1 && p.2)

/-- Modelled from the spec: the ascending-validator-index guard, true when
the candidate index is strictly greater than the last processed one. -/
def ltOpt : Option Nat → Nat → Bool
  | none, _ => true
  | some j, i => decide (j < i)

/-- Modelled from the spec and the staged tests: the per-record loop of the
bitfield sanitizer. A record is skipped when its bit length differs from the
expected core count, when it has a set bit on a disputed core (the staged
tests pin dropping, not clearing), when its validator index is not strictly
greater than the last processed index, when the index is out of range, or
when the signature fails; the last processed index advances whenever the
signature of an in-range, in-order record is checked, whether or not the
check succeeds. -/
def sanitize_bitfields_go (chk : UncheckedBitfield → Nat → Bool) (disputed : List Bool)
    (expectedBits : Nat) (validators : List Nat) :
    Option Nat → List UncheckedBitfield → List UncheckedBitfield
  | _, [] => []
  | last, b :: rest =>
    if b.bits.length ≠ expectedBits then
      sanitize_bitfields_go chk disputed expectedBits validators last rest
    else if hasDisputedBit b.bits disputed then
      sanitize_bitfields_go chk disputed expectedBits validators last rest
    else if ¬ ltOpt last b.validator_index then
      sanitize_bitfields_go chk disputed expectedBits validators last rest
    else if validators.length ≤ b.validator_index then
      sanitize_bitfields_go chk disputed expectedBits validators last rest
    else if chk b (validators.getD b.validator_index 0) then
      b :: sanitize_bitfields_go chk disputed expectedBits validators
        (some b.validator_index) rest
    else
      sanitize_bitfields_go chk disputed expectedBits validators
        (some b.validator_index) rest

/-- Modelled from the spec and the staged tests: the bitfield sanitizer. The
overall expected-length check compares the disputed-core mask against the
expected core count and empties the whole batch on mismatch (defensive
behavior against chain-wide parameter drift); every other check is applied
per record by the loop. -/
def sanitize_bitfields (chk : UncheckedBitfield → Nat → Bool)
    (unchecked : List UncheckedBitfield) (disputed : List Bool)
    (expectedBits : Nat) (validators : List Nat) : List UncheckedBitfield :=
  if disputed.length ≠ expectedBits then []
  else sanitize_bitfields_go chk disputed expectedBits validators none unchecked

/-- Modelled from the spec and the staged tests: how the last processed
validator index advances past one record of the bitfield loop: it advances
to the record index exactly when the record passes the length,
disputed-core, ascending-index and range checks; the signature check plays
no part in the advance. -/
def stepLast (disputed : List Bool) (expectedBits : Nat) (validators : List Nat)
    (last : Option Nat) (b : UncheckedBitfield) : Option Nat :=
  if b.bits.length ≠ expectedBits then last
  else if hasDisputedBit b.bits disputed then last
  else if ¬ ltOpt last b.validator_index then last
  else if validators.length ≤ b.validator_index then last
  else some b.validator_index

/-- Modelled from the spec and the staged tests: the last processed
validator index of the bitfield loop after a whole prefix of records. -/
def lastAfter (disputed : List Bool) (expectedBits : Nat) (validators : List Nat)
    (last : Option Nat) (l : List UncheckedBitfield) : Option Nat :=
  l.foldl (stepLast disputed expectedBits validators) last

/-- Modelled from the spec: the scheduled cores currently available for a
para id, none when the para id has no entry in the schedule. -/
def lookupCores (scheduled : List (Nat × List Nat)) (p : Nat) : Option (List Nat) :=
  match scheduled.find? (fun e => e.1 == p) with
  | some e => some e.2
  | none => none

/-- Modelled from the spec: update the remaining scheduled cores of one para
id in the schedule snapshot. -/
def adjustCores (scheduled : List (Nat × List Nat)) (p : Nat)
    (f : List Nat → List Nat) : List (Nat × List Nat) :=
  scheduled.map (fun e => if e.1 = p then (e.1, f e.2) else e)

/-- Modelled from the spec and the staged tests: resolve each backed
candidate to a core. With an explicit core-index tag (honoured only when
core-index tagging is active) the candidate is kept when the tag is among
the remaining scheduled cores of its para, consuming that core; without a
tag the candidate is kept only when its para has exactly one remaining
scheduled core, consuming all of them (the staged multi-core test pins that
untagged candidates of multi-core paras are dropped). Unscheduled
candidates are silently filtered out. -/
def map_candidates_to_cores (enabled : Bool) :
    List (Nat × List Nat) → List BackedCandidate → List (BackedCandidate × Nat)
  | _, [] => []
  | scheduled, c :: rest =>
    match lookupCores scheduled c.para_id, (if enabled then c.core_tag else none) with
    | none, _ => map_candidates_to_cores enabled scheduled rest
    | some cores, some ci =>
      if ci ∈ cores then
        (c, ci) :: map_candidates_to_cores enabled
          (adjustCores scheduled c.para_id (fun l => l.erase ci)) rest
      else map_candidates_to_cores enabled scheduled rest
    | some cores, none =>
      match cores with
      | [k] => (c, k) :: map_candidates_to_cores enabled
          (adjustCores scheduled c.para_id (fun _ => [])) rest
      | _ => map_candidates_to_cores enabled scheduled rest

/-- Modelled from the spec: strip the backing votes cast by currently
disabled validators from one candidate. -/
def stripDisabledVotes (disabled : List Nat) (c : BackedCandidate) : BackedCandidate :=
  { c with votes := c.votes.filter (fun v => ! decide (v ∈ disabled)) }

/-- Modelled from the spec: strip disabled-validator votes from every
surviving candidate, then drop any candidate whose remaining vote count
falls below the minimum-backing-votes threshold; the boolean reports
whether any vote was stripped or any candidate dropped. -/
def filter_backed_statements_from_disabled_validators (disabled : List Nat)
    (minVotes : Nat) (l : List (BackedCandidate × Nat)) :
    List (BackedCandidate × Nat) × Bool :=
  let stripped := l.map (fun p => (stripDisabledVotes disabled p.1, p.2))
  let kept := stripped.filter (fun p => decide (minVotes ≤ p.1.votes.length))
  (kept, decide (stripped ≠ l) || decide (kept.length ≠ l.length))

/-- Modelled from the spec: the candidate sanitizer output, the surviving
candidate-core pairs in original relative order plus the two observability
booleans. -/
structure SanitizedBackedCandidates where
  backed_candidates_with_core : List (BackedCandidate × Nat)
  votes_from_disabled_were_dropped : Bool
  dropped_unscheduled_candidates : Bool
deriving DecidableEq

/-- Modelled from the spec: the candidate sanitizer. Drops candidates already
concluded invalid, resolves the survivors to scheduled cores (dropping
unscheduled ones), then strips disabled-validator votes and drops candidates
left with too few votes. -/
def sanitize_backed_candidates (ctx : Context) (cands : List BackedCandidate) :
    SanitizedBackedCandidates :=
  let not_invalid := cands.filter (fun c => ! ctx.concludedInvalid c)
  let with_cores :=
    map_candidates_to_cores ctx.coreIndexEnabled ctx.scheduledParas not_invalid
  let fd := filter_backed_statements_from_disabled_validators
    ctx.disabledValidators ctx.minimumBackingVotes with_cores
  { backed_candidates_with_core := fd.1,
    votes_from_disabled_were_dropped := fd.2,
    dropped_unscheduled_candidates := decide (with_cores.length ≠ not_invalid.length) }

/-- Modelled from the spec: the dispute sanitizer and limiter with first
claim on the whole block budget: hard-filter future sessions, sort oldest
session first, then greedily accept while within the ceilings. -/
def limited_disputes (wm : WeightModel) (lim : Limits) (ctx : Context)
    (l : List DisputeStatementSet) : List DisputeStatementSet :=
  fitUnder wm.disputeW wm.disputeLen lim.maxWeight lim.maxLen ⟨0, 0⟩ 0
    (sortBySession (filter_future_disputes ctx.currentSession l))

/-- Modelled from the spec: sanitize the bitfields, then greedily fit them
into the budget remaining after the disputes. -/
def limited_bitfields (wm : WeightModel) (lim : Limits) (ctx : Context)
    (accW : Weight) (accL : Nat) (l : List UncheckedBitfield) : List UncheckedBitfield :=
  fitUnder wm.bitfieldW wm.bitfieldLen lim.maxWeight lim.maxLen accW accL
    (sanitize_bitfields ctx.checkSig l ctx.disputedBitfield ctx.expectedBits ctx.validators)

/-- Modelled from the spec: sanitize the backed candidates, then greedily fit
the surviving candidate-core pairs into the budget remaining after disputes
and bitfields. -/
def limited_candidates (wm : WeightModel) (lim : Limits) (ctx : Context)
    (accW : Weight) (accL : Nat) (cands : List BackedCandidate) :
    List (BackedCandidate × Nat) :=
  fitUnder (fun p => wm.candidateW p.1) (fun p => wm.candidateLen p.1)
    lim.maxWeight lim.maxLen accW accL
    (sanitize_backed_candidates ctx cands).backed_candidates_with_core

/-- Modelled from the spec: the block-authoring entry of the admission
controller, producing a verified, weight-bounded, priority-ordered payload:
disputes spend first, bitfields next, backed candidates last. -/
def create_inherent_inner (wm : WeightModel) (lim : Limits) (ctx : Context)
    (data : ParachainsInherentData) : ParachainsInherentData :=
  { disputes := limited_disputes wm lim ctx data.disputes
    bitfields := limited_bitfields wm lim ctx
      (sumWeights wm.disputeW (limited_disputes wm lim ctx data.disputes))
      (sumLens wm.disputeLen (limited_disputes wm lim ctx data.disputes))
      data.bitfields
    backed_candidates :=
      (limited_candidates wm lim ctx
        (sumWeights wm.disputeW (limited_disputes wm lim ctx data.disputes) +
          sumWeights wm.bitfieldW (limited_bitfields wm lim ctx
            (sumWeights wm.disputeW (limited_disputes wm lim ctx data.disputes))
            (sumLens wm.disputeLen (limited_disputes wm lim ctx data.disputes))
            data.bitfields))
        (sumLens wm.disputeLen (limited_disputes wm lim ctx data.disputes) +
          sumLens wm.bitfieldLen (limited_bitfields wm lim ctx
            (sumWeights wm.disputeW (limited_disputes wm lim ctx data.disputes))
            (sumLens wm.disputeLen (limited_disputes wm lim ctx data.disputes))
            data.bitfields))
        data.backed_candidates).map Prod.fst }

/-- Modelled from the spec: the fatal dispatch errors of the admission
controller. -/
inductive DispatchError where
  | InherentOverweight
deriving DecidableEq

/-- Modelled from the spec: the payload as the block-import entry point
filters it, with the weight-limited disputes but no weight truncation of
bitfields or candidates, only their sanitization. -/
def enter_filtered (wm : WeightModel) (lim : Limits) (ctx : Context)
    (data : ParachainsInherentData) : ParachainsInherentData :=
  { disputes := limited_disputes wm lim ctx data.disputes
    bitfields := sanitize_bitfields ctx.checkSig data.bitfields
      ctx.disputedBitfield ctx.expectedBits ctx.validators
    backed_candidates :=
      ((sanitize_backed_candidates ctx data.backed_candidates).backed_candidates_with_core).map
        Prod.fst }

/-- Modelled from the spec: the no-origin entry point. After filtering, the
total weight and length are recomputed; a payload still over the ceiling is
rejected outright with the fatal InherentOverweight error, never partially
accepted. -/
def enter (wm : WeightModel) (lim : Limits) (ctx : Context)
    (data : ParachainsInherentData) : Except DispatchError ParachainsInherentData :=
  if paras_inherent_total_weight wm (enter_filtered wm lim ctx data) ≤ lim.maxWeight ∧
      paras_inherent_total_len wm (enter_filtered wm lim ctx data) ≤ lim.maxLen then
    Except.ok (enter_filtered wm lim ctx data)
  else
    Except.error DispatchError.InherentOverweight

end ParasInherent

namespace ParasInherent

/-- A concrete signature oracle for examples: a submission verifies against a
key when its signature token equals that key. -/
def chkX : UncheckedBitfield → Nat → Bool := fun b k => b.signature == k

/-- A concrete well-signed bitfield from validator 0 claiming both cores. -/
def c0x : UncheckedBitfield := ⟨[true, true], 0, 10⟩

/-- A concrete well-signed bitfield from validator 1 claiming both cores. -/
def c1x : UncheckedBitfield := ⟨[true, true], 1, 11⟩

/-- A concrete well-signed bitfield from validator 2 claiming only core 1. -/
def c2x : UncheckedBitfield := ⟨[false, true], 2, 12⟩

/-- A concrete bitfield whose bit length is 1, not the expected 2. -/
def cbadLen : UncheckedBitfield := ⟨[true], 0, 10⟩

/-- Concrete candidates mirroring the multi-core test data: para 1 supplies
two candidates, para 2 and para 3 one each, para 4 two (the first untagged),
para 5 none. -/
def p1a : BackedCandidate := ⟨1, 1, some 0, [0]⟩

/-- Second candidate of para 1. -/
def p1b : BackedCandidate := ⟨1, 2, some 1, [1]⟩

/-- The candidate of para 2. -/
def p2a : BackedCandidate := ⟨2, 3, some 2, [2]⟩

/-- The candidate of para 3. -/
def p3a : BackedCandidate := ⟨3, 4, some 4, [4]⟩

/-- First candidate of para 4, carrying no explicit core tag. -/
def p4a : BackedCandidate := ⟨4, 5, none, [5]⟩

/-- Second candidate of para 4. -/
def p4b : BackedCandidate := ⟨4, 6, some 5, [5]⟩

/-- The schedule of the multi-core test data: para 1 on cores 0 and 1,
para 2 on cores 2 and 3, para 3 on core 4, para 4 on core 5, para 5 on
core 6. -/
def sched5 : List (Nat × List Nat) := [(1, [0, 1]), (2, [2, 3]), (3, [4]), (4, [5]), (5, [6])]

/-- A concrete weight model pricing a dispute by its statement count and
every other record at one unit each. -/
def wm6 : WeightModel :=
  ⟨fun d => ⟨d.statements, 1⟩, fun d => d.statements,
    fun _ => ⟨1, 1⟩, fun _ => 1, fun _ => ⟨1, 1⟩, fun _ => 1⟩

/-- Generous ceilings under which nothing is truncated. -/
def lim6 : Limits := ⟨⟨1000, 1000⟩, 1000⟩

/-- A context whose current session is 2. -/
def ctx6 : Context := ⟨2, [], 0, [], chkX, fun _ => false, [], false, [], 1⟩

/-- A dispute statement set at session 1. -/
def d1 : DisputeStatementSet := ⟨1, 1, 1⟩

/-- A dispute statement set at session 2. -/
def d2 : DisputeStatementSet := ⟨2, 2, 1⟩

/-- A dispute statement set at session 3, in the future of session 2. -/
def d3 : DisputeStatementSet := ⟨3, 3, 1⟩

/-- A weight model pricing each bitfield above the small ceilings below. -/
def wmC : WeightModel :=
  ⟨fun _ => ⟨1, 1⟩, fun _ => 1, fun _ => ⟨10, 10⟩, fun _ => 10, fun _ => ⟨1, 1⟩, fun _ => 1⟩

/-- Small ceilings exceeded by one bitfield of the model wmC. -/
def limC : Limits := ⟨⟨5, 5⟩, 5⟩

/-- A context with a single core, a single validator and no disputes. -/
def ctxC : Context := ⟨2, [false], 1, [10], chkX, fun _ => false, [], false, [], 1⟩

/-- A payload with one valid bitfield whose cost exceeds the ceilings of
limC even after full filtering. -/
def dataC : ParachainsInherentData := ⟨[⟨[true], 0, 10⟩], [], []⟩

/-- A candidate backed by a single vote from validator 0. -/
def c8cand : BackedCandidate := ⟨1, 10, none, [0]⟩

end ParasInherent

namespace ParasInherent

/-- A bitfield claiming core 1 with a signature that verifies against no
key of the example validators. -/
def c2badSig : UncheckedBitfield := ⟨[false, true], 2, 999⟩

/-- A second concrete well-signed bitfield from validator 2 whose payload
differs from c2x, so that keeping the first duplicate and keeping the later
duplicate give different outputs. -/
def c2y : UncheckedBitfield := ⟨[true, false], 2, 12⟩

end ParasInherent

namespace ParasInherent

theorem Weight.le_def (a b : Weight) :
    a ≤ b ↔ a.ref_time ≤ b.ref_time ∧ a.proof_size ≤ b.proof_size := Iff.rfl

theorem Weight.add_def (a b : Weight) :
    a + b = ⟨a.ref_time + b.ref_time, a.proof_size + b.proof_size⟩ := rfl

theorem Weight.add_assoc (a b c : Weight) : a + b + c = a + (b + c) := by
  cases a; cases b; cases c
  simp [Weight.add_def, Nat.add_assoc]

theorem Weight.zero_add (a : Weight) : (⟨0, 0⟩ : Weight) + a = a := by
  cases a; simp [Weight.add_def]

theorem Weight.add_zero (a : Weight) : a + (⟨0, 0⟩ : Weight) = a := by
  cases a; simp [Weight.add_def]

theorem Weight.zero_le (a : Weight) : (⟨0, 0⟩ : Weight) ≤ a :=
  ⟨Nat.zero_le _, Nat.zero_le _⟩

theorem sumWeights_nil {α : Type} (w : α → Weight) : sumWeights w [] = ⟨0, 0⟩ := rfl

theorem sumWeights_cons {α : Type} (w : α → Weight) (x : α) (l : List α) :
    sumWeights w (x :: l) = w x + sumWeights w l := rfl

theorem sumLens_nil {α : Type} (g : α → Nat) : sumLens g [] = 0 := rfl

theorem sumLens_cons {α : Type} (g : α → Nat) (x : α) (l : List α) :
    sumLens g (x :: l) = g x + sumLens g l := rfl

theorem sumWeights_map {α β : Type} (w : β → Weight) (f : α → β) (l : List α) :
    sumWeights w (l.map f) = sumWeights (fun x => w (f x)) l := by
  induction l with
  | nil => rfl
  | cons x xs ih => simp [List.map_cons, sumWeights_cons, ih]

theorem sumLens_map {α β : Type} (g : β → Nat) (f : α → β) (l : List α) :
    sumLens g (l.map f) = sumLens (fun x => g (f x)) l := by
  induction l with
  | nil => rfl
  | cons x xs ih => simp [List.map_cons, sumLens_cons, ih]

/-- The greedy fitter never exceeds the ceilings: starting from consumed
totals within the ceilings, the consumed totals plus the accepted records
stay within the ceilings. -/
theorem fitUnder_bound {α : Type} (w : α → Weight) (g : α → Nat) (maxW : Weight)
    (maxL : Nat) : ∀ (l : List α) (accW : Weight) (accL : Nat),
    accW ≤ maxW → accL ≤ maxL →
      accW + sumWeights w (fitUnder w g maxW maxL accW accL l) ≤ maxW ∧
      accL + sumLens g (fitUnder w g maxW maxL accW accL l) ≤ maxL := by
  intro l
  induction l with
  | nil =>
    intro accW accL hW hL
    simp only [fitUnder, sumWeights_nil, sumLens_nil, Weight.add_zero, Nat.add_zero]
    exact ⟨hW, hL⟩
  | cons x xs ih =>
    intro accW accL hW hL
    by_cases h : accW + w x ≤ maxW ∧ accL + g x ≤ maxL
    · rw [fitUnder, if_pos h]
      have := ih (accW + w x) (accL + g x) h.1 h.2
      constructor
      · rw [sumWeights_cons, ← Weight.add_assoc]
        exact this.1
      · rw [sumLens_cons, ← Nat.add_assoc]
        exact this.2
    · rw [fitUnder, if_neg h]
      simp only [sumWeights_nil, sumLens_nil, Weight.add_zero, Nat.add_zero]
      exact ⟨hW, hL⟩

/-- The greedy fitter returns an initial segment of its input. -/
theorem fitUnder_eq_append {α : Type} (w : α → Weight) (g : α → Nat) (maxW : Weight)
    (maxL : Nat) : ∀ (l : List α) (accW : Weight) (accL : Nat),
    ∃ t, l = fitUnder w g maxW maxL accW accL l ++ t := by
  intro l
  induction l with
  | nil => intro accW accL; exact ⟨[], rfl⟩
  | cons x xs ih =>
    intro accW accL
    by_cases h : accW + w x ≤ maxW ∧ accL + g x ≤ maxL
    · obtain ⟨t, ht⟩ := ih (accW + w x) (accL + g x)
      refine ⟨t, ?_⟩
      rw [fitUnder, if_pos h, List.cons_append]
      exact congrArg (x :: ·) ht
    · exact ⟨x :: xs, by rw [fitUnder, if_neg h]; rfl⟩

end ParasInherent

namespace ParasInherent

theorem mem_insertBySession (d a : DisputeStatementSet) :
    ∀ l, a ∈ insertBySession d l ↔ a = d ∨ a ∈ l := by
  intro l
  induction l with
  | nil => simp [insertBySession]
  | cons x xs ih =>
    by_cases h : d.session ≤ x.session
    · simp [insertBySession, if_pos h]
    · simp only [insertBySession, if_neg h, List.mem_cons, ih]
      tauto

theorem pairwise_insertBySession (d : DisputeStatementSet) :
    ∀ l, List.Pairwise (fun a b => a.session ≤ b.session) l →
      List.Pairwise (fun a b => a.session ≤ b.session) (insertBySession d l) := by
  intro l
  induction l with
  | nil => intro _; simp [insertBySession]
  | cons x xs ih =>
    intro h
    rw [List.pairwise_cons] at h
    by_cases hc : d.session ≤ x.session
    · rw [insertBySession, if_pos hc, List.pairwise_cons]
      refine ⟨?_, List.pairwise_cons.mpr h⟩
      intro a ha
      rcases List.mem_cons.mp ha with rfl | ha
      · exact hc
      · exact Nat.le_trans hc (h.1 a ha)
    · rw [insertBySession, if_neg hc, List.pairwise_cons]
      refine ⟨?_, ih h.2⟩
      intro a ha
      rcases (mem_insertBySession d a xs).mp ha with rfl | ha
      · exact Nat.le_of_lt (Nat.lt_of_not_le hc)
      · exact h.1 a ha

theorem pairwise_sortBySession (l : List DisputeStatementSet) :
    List.Pairwise (fun a b => a.session ≤ b.session) (sortBySession l) := by
  induction l with
  | nil => simp [sortBySession]
  | cons x xs ih => exact pairwise_insertBySession x _ ih

/-- Every record the bitfield loop keeps is a record of its input, in input
order. -/
theorem sanitize_go_sublist (chk : UncheckedBitfield → Nat → Bool) (disputed : List Bool)
    (expectedBits : Nat) (validators : List Nat) :
    ∀ (l : List UncheckedBitfield) (last : Option Nat),
      (sanitize_bitfields_go chk disputed expectedBits validators last l).Sublist l := by
  intro l
  induction l with
  | nil => intro last; simp [sanitize_bitfields_go]
  | cons b rest ih =>
    intro last
    rw [sanitize_bitfields_go]
    split
    · exact (ih last).cons b
    · split
      · exact (ih last).cons b
      · split
        · exact (ih last).cons b
        · split
          · exact (ih last).cons b
          · split
            · exact (ih (some b.validator_index)).cons₂ b
            · exact (ih (some b.validator_index)).cons b

/-- The indices the bitfield loop keeps are strictly ascending, and all lie
strictly above the last processed index. -/
theorem sanitize_go_ascending (chk : UncheckedBitfield → Nat → Bool) (disputed : List Bool)
    (expectedBits : Nat) (validators : List Nat) :
    ∀ (l : List UncheckedBitfield) (last : Option Nat),
      List.Pairwise (fun a b => a.validator_index < b.validator_index)
        (sanitize_bitfields_go chk disputed expectedBits validators last l) ∧
      ∀ b ∈ sanitize_bitfields_go chk disputed expectedBits validators last l,
        ∀ j, last = some j → j < b.validator_index := by
  intro l
  induction l with
  | nil => intro last; simp [sanitize_bitfields_go]
  | cons b rest ih =>
    intro last
    rw [sanitize_bitfields_go]
    split
    · exact ih last
    · split
      · exact ih last
      · split
        · exact ih last
        · rename_i hlen hdis hord
          have hord' : ltOpt last b.validator_index = true := by
            by_cases hb : ltOpt last b.validator_index = true
            · exact hb
            · exact absurd (by simpa using hb) hord
          split
          · exact ih last
          · have ihs := ih (some b.validator_index)
            have hgt : ∀ x ∈ sanitize_bitfields_go chk disputed expectedBits validators
                (some b.validator_index) rest, b.validator_index < x.validator_index := by
              intro x hx
              exact ihs.2 x hx b.validator_index rfl
            split
            · constructor
              · rw [List.pairwise_cons]
                exact ⟨hgt, ihs.1⟩
              · intro x hx j hj
                rcases List.mem_cons.mp hx with rfl | hx
                · subst hj
                  simpa [ltOpt] using hord'
                · have h1 : j < b.validator_index := by
                    subst hj
                    simpa [ltOpt] using hord'
                  exact Nat.lt_trans h1 (hgt x hx)
            · refine ⟨ihs.1, ?_⟩
              intro x hx j hj
              have h1 : j < b.validator_index := by
                subst hj
                simpa [ltOpt] using hord'
              exact Nat.lt_trans h1 (hgt x hx)

/-- Every record the bitfield loop keeps has no set bit on a disputed core
and has the expected bit length. -/
theorem sanitize_go_checked (chk : UncheckedBitfield → Nat → Bool) (disputed : List Bool)
    (expectedBits : Nat) (validators : List Nat) :
    ∀ (l : List UncheckedBitfield) (last : Option Nat),
      ∀ b ∈ sanitize_bitfields_go chk disputed expectedBits validators last l,
        hasDisputedBit b.bits disputed = false ∧ b.bits.length = expectedBits := by
  intro l
  induction l with
  | nil => intro last; simp [sanitize_bitfields_go]
  | cons b rest ih =>
    intro last
    rw [sanitize_bitfields_go]
    by_cases h1 : b.bits.length ≠ expectedBits
    · rw [if_pos h1]; exact ih last
    · rw [if_neg h1]
      by_cases h2 : hasDisputedBit b.bits disputed = true
      · rw [if_pos h2]; exact ih last
      · rw [if_neg h2]
        by_cases h3 : ¬ ltOpt last b.validator_index = true
        · rw [if_pos h3]; exact ih last
        · rw [if_neg h3]
          by_cases h4 : validators.length ≤ b.validator_index
          · rw [if_pos h4]; exact ih last
          · rw [if_neg h4]
            by_cases h5 : chk b (validators.getD b.validator_index 0) = true
            · rw [if_pos h5]
              intro x hx
              rcases List.mem_cons.mp hx with rfl | hx
              · exact ⟨by simpa using h2, by simpa using h1⟩
              · exact ih (some b.validator_index) x hx
            · rw [if_neg h5]; exact ih (some b.validator_index)

/-- Records with the wrong bit length are skipped independently: removing
them from the input does not change the output. -/
theorem sanitize_go_filter_length (chk : UncheckedBitfield → Nat → Bool)
    (disputed : List Bool) (expectedBits : Nat) (validators : List Nat) :
    ∀ (l : List UncheckedBitfield) (last : Option Nat),
      sanitize_bitfields_go chk disputed expectedBits validators last l =
        sanitize_bitfields_go chk disputed expectedBits validators last
          (l.filter (fun b => b.bits.length == expectedBits)) := by
  intro l
  induction l with
  | nil => intro last; rfl
  | cons b rest ih =>
    intro last
    by_cases hlen : b.bits.length = expectedBits
    · have hf : (b.bits.length == expectedBits) = true := by simpa using hlen
      have hne : ¬ b.bits.length ≠ expectedBits := by simpa using hlen
      simp only [List.filter_cons, hf, if_true]
      rw [sanitize_bitfields_go]
      conv_rhs => rw [sanitize_bitfields_go]
      by_cases h2 : hasDisputedBit b.bits disputed = true
      · rw [if_neg hne, if_neg hne, if_pos h2, if_pos h2]; exact ih last
      · rw [if_neg hne, if_neg hne, if_neg h2, if_neg h2]
        by_cases h3 : ¬ ltOpt last b.validator_index = true
        · rw [if_pos h3, if_pos h3]; exact ih last
        · rw [if_neg h3, if_neg h3]
          by_cases h4 : validators.length ≤ b.validator_index
          · rw [if_pos h4, if_pos h4]; exact ih last
          · rw [if_neg h4, if_neg h4]
            by_cases h5 : chk b (validators.getD b.validator_index 0) = true
            · rw [if_pos h5, if_pos h5]
              exact congrArg (b :: ·) (ih (some b.validator_index))
            · rw [if_neg h5, if_neg h5]
              exact ih (some b.validator_index)
    · have hf : (b.bits.length == expectedBits) = false := by simpa using hlen
      simp only [List.filter_cons, hf, Bool.false_eq_true, if_false]
      rw [sanitize_bitfields_go, if_pos hlen]
      exact ih last

/-- The bitfield loop processes an appended input compositionally: the
second part is processed with the last index left by the first part. -/
theorem sanitize_go_append (chk : UncheckedBitfield → Nat → Bool) (disputed : List Bool)
    (expectedBits : Nat) (validators : List Nat) :
    ∀ (l₁ l₂ : List UncheckedBitfield) (last : Option Nat),
      sanitize_bitfields_go chk disputed expectedBits validators last (l₁ ++ l₂) =
        sanitize_bitfields_go chk disputed expectedBits validators last l₁ ++
          sanitize_bitfields_go chk disputed expectedBits validators
            (lastAfter disputed expectedBits validators last l₁) l₂ := by
  intro l₁
  induction l₁ with
  | nil => intro l₂ last; rfl
  | cons b t ih =>
    intro l₂ last
    rw [List.cons_append, sanitize_bitfields_go]
    conv_rhs => rw [sanitize_bitfields_go]
    simp only [lastAfter, List.foldl_cons, stepLast]
    by_cases h1 : b.bits.length ≠ expectedBits
    · rw [if_pos h1, if_pos h1, if_pos h1]
      exact ih l₂ last
    · rw [if_neg h1, if_neg h1, if_neg h1]
      by_cases h2 : hasDisputedBit b.bits disputed = true
      · rw [if_pos h2, if_pos h2, if_pos h2]
        exact ih l₂ last
      · rw [if_neg h2, if_neg h2, if_neg h2]
        by_cases h3 : ¬ ltOpt last b.validator_index = true
        · rw [if_pos h3, if_pos h3, if_pos h3]
          exact ih l₂ last
        · rw [if_neg h3, if_neg h3, if_neg h3]
          by_cases h4 : validators.length ≤ b.validator_index
          · rw [if_pos h4, if_pos h4, if_pos h4]
            exact ih l₂ last
          · rw [if_neg h4, if_neg h4, if_neg h4]
            by_cases h5 : chk b (validators.getD b.validator_index 0) = true
            · rw [if_pos h5, if_pos h5, List.cons_append]
              exact congrArg (b :: ·) (ih l₂ (some b.validator_index))
            · rw [if_neg h5, if_neg h5]
              exact ih l₂ (some b.validator_index)

/-- The last processed index of the bitfield loop never decreases. -/
theorem lastAfter_mono (disputed : List Bool) (expectedBits : Nat) (validators : List Nat) :
    ∀ (l : List UncheckedBitfield) (j : Nat),
      ∃ k, lastAfter disputed expectedBits validators (some j) l = some k ∧ j ≤ k := by
  intro l
  induction l with
  | nil => intro j; exact ⟨j, rfl, Nat.le_refl j⟩
  | cons b t ih =>
    intro j
    simp only [lastAfter, List.foldl_cons, stepLast]
    by_cases h1 : b.bits.length ≠ expectedBits
    · rw [if_pos h1]; exact ih j
    · rw [if_neg h1]
      by_cases h2 : hasDisputedBit b.bits disputed = true
      · rw [if_pos h2]; exact ih j
      · rw [if_neg h2]
        by_cases h3 : ¬ ltOpt (some j) b.validator_index = true
        · rw [if_pos h3]; exact ih j
        · rw [if_neg h3]
          by_cases h4 : validators.length ≤ b.validator_index
          · rw [if_pos h4]; exact ih j
          · rw [if_neg h4]
            have hj : j < b.validator_index := by
              have hlt := Decidable.not_not.mp h3
              simpa [ltOpt] using hlt
            obtain ⟨k, hk, hle⟩ := ih b.validator_index
            exact ⟨k, hk, Nat.le_trans (Nat.le_of_lt hj) hle⟩

/-- Every index the bitfield loop accepts is bounded by the last processed
index left after the whole input. -/
theorem sanitize_go_last_bound (chk : UncheckedBitfield → Nat → Bool) (disputed : List Bool)
    (expectedBits : Nat) (validators : List Nat) :
    ∀ (l : List UncheckedBitfield) (last : Option Nat) (b : UncheckedBitfield),
      b ∈ sanitize_bitfields_go chk disputed expectedBits validators last l →
      ∃ k, lastAfter disputed expectedBits validators last l = some k ∧
        b.validator_index ≤ k := by
  intro l
  induction l with
  | nil => intro last b hb; simp [sanitize_bitfields_go] at hb
  | cons c t ih =>
    intro last b hb
    rw [sanitize_bitfields_go] at hb
    simp only [lastAfter, List.foldl_cons, stepLast]
    by_cases h1 : c.bits.length ≠ expectedBits
    · rw [if_pos h1] at hb; rw [if_pos h1]; exact ih last b hb
    · rw [if_neg h1] at hb; rw [if_neg h1]
      by_cases h2 : hasDisputedBit c.bits disputed = true
      · rw [if_pos h2] at hb; rw [if_pos h2]; exact ih last b hb
      · rw [if_neg h2] at hb; rw [if_neg h2]
        by_cases h3 : ¬ ltOpt last c.validator_index = true
        · rw [if_pos h3] at hb; rw [if_pos h3]; exact ih last b hb
        · rw [if_neg h3] at hb; rw [if_neg h3]
          by_cases h4 : validators.length ≤ c.validator_index
          · rw [if_pos h4] at hb; rw [if_pos h4]; exact ih last b hb
          · rw [if_neg h4] at hb; rw [if_neg h4]
            by_cases h5 : chk c (validators.getD c.validator_index 0) = true
            · rw [if_pos h5] at hb
              rcases List.mem_cons.mp hb with rfl | hb
              · exact lastAfter_mono disputed expectedBits validators t b.validator_index
              · exact ih (some c.validator_index) b hb
            · rw [if_neg h5] at hb
              exact ih (some c.validator_index) b hb

/-- A record whose validator index is at most the last processed index is
skipped without any effect: the loop continues as if it were absent. -/
theorem sanitize_go_skip_le (chk : UncheckedBitfield → Nat → Bool) (disputed : List Bool)
    (expectedBits : Nat) (validators : List Nat) :
    ∀ (b : UncheckedBitfield) (l : List UncheckedBitfield) (j : Nat),
      b.validator_index ≤ j →
      sanitize_bitfields_go chk disputed expectedBits validators (some j) (b :: l) =
        sanitize_bitfields_go chk disputed expectedBits validators (some j) l := by
  intro b l j hle
  have hord : ¬ ltOpt (some j) b.validator_index = true := by
    simp only [ltOpt, decide_eq_true_eq]
    omega
  rw [sanitize_bitfields_go]
  by_cases h1 : b.bits.length ≠ expectedBits
  · rw [if_pos h1]
  · rw [if_neg h1]
    by_cases h2 : hasDisputedBit b.bits disputed = true
    · rw [if_pos h2]
    · rw [if_neg h2, if_pos hord]

end ParasInherent

namespace ParasInherent

/-! Model validation against the scenarios of the staged tests. -/

theorem model_test_bitfields_all_kept :
    sanitize_bitfields chkX [c0x, c1x, c2x] [false, false] 2 [10, 11, 12] =
      [c0x, c1x, c2x] := by decide

theorem model_test_bitfields_disputed_core :
    (sanitize_bitfields chkX [c0x, c1x, c2x] [true, false] 2 [10, 11, 12]).length = 1 := by
  decide

theorem model_test_bitfields_size_mismatch :
    sanitize_bitfields chkX [c0x, c1x, c2x] [false, false] 3 [10, 11, 12] = [] := by decide

theorem model_test_bitfields_short_validator_list :
    sanitize_bitfields chkX [c0x, c1x, c2x] [false, false] 2 [10] = [c0x] := by decide

theorem model_test_bitfields_bad_signature :
    sanitize_bitfields chkX [c0x, c1x, c2badSig] [false, false] 2 [10, 11, 12] =
      [c0x, c1x] := by decide

theorem model_test_bitfields_duplicates :
    sanitize_bitfields chkX [c0x, c1x, c2badSig, c0x, c1x, c2badSig]
      [false, false] 2 [10, 11, 12] = [c0x, c1x] := by decide

theorem model_test_candidates_with_core_tagging :
    map_candidates_to_cores true sched5 [p1a, p1b, p2a, p3a, p4a, p4b] =
      [(p1a, 0), (p1b, 1), (p2a, 2), (p3a, 4), (p4a, 5)] := by decide

theorem model_test_strip_without_dropping :
    (filter_backed_statements_from_disabled_validators [0] 1
        [(⟨1, 10, none, [0, 1]⟩, 0), (⟨2, 11, none, [2, 3]⟩, 1)]).1 =
      [(⟨1, 10, none, [1]⟩, 0), (⟨2, 11, none, [2, 3]⟩, 1)] := by decide

theorem model_test_drop_when_all_votes_disabled :
    (filter_backed_statements_from_disabled_validators [0, 1] 2
        [(⟨1, 10, none, [0, 1]⟩, 0), (⟨2, 11, none, [2, 3]⟩, 1)]).1 =
      [(⟨2, 11, none, [2, 3]⟩, 1)] := by decide

theorem model_test_sort_is_stable :
    sortBySession [d2, ⟨2, 7, 1⟩, d1] = [d1, d2, ⟨2, 7, 1⟩] := by decide

end ParasInherent

namespace ParasInherent

/-- C1: for every raw inherent payload, the filtered payload returned by
create_inherent_inner has total weight (execution time and proof size, as
computed by the shared weight accountant over its disputes, bitfields and
backed candidates) and total encoded byte length no greater than the
configured block weight and block length ceilings. -/
theorem claim_c1_weight_bound :
    ∀ (wm : WeightModel) (lim : Limits) (ctx : Context) (data : ParachainsInherentData),
      paras_inherent_total_weight wm (create_inherent_inner wm lim ctx data) ≤ lim.maxWeight ∧
      paras_inherent_total_len wm (create_inherent_inner wm lim ctx data) ≤ lim.maxLen := by
  intro wm lim ctx data
  obtain ⟨h1W, h1L⟩ := fitUnder_bound wm.disputeW wm.disputeLen lim.maxWeight lim.maxLen
    (sortBySession (filter_future_disputes ctx.currentSession data.disputes)) ⟨0, 0⟩ 0
    (Weight.zero_le _) (Nat.zero_le _)
  rw [Weight.zero_add] at h1W
  rw [Nat.zero_add] at h1L
  obtain ⟨h2W, h2L⟩ := fitUnder_bound wm.bitfieldW wm.bitfieldLen lim.maxWeight lim.maxLen
    (sanitize_bitfields ctx.checkSig data.bitfields ctx.disputedBitfield
      ctx.expectedBits ctx.validators)
    (sumWeights wm.disputeW (limited_disputes wm lim ctx data.disputes))
    (sumLens wm.disputeLen (limited_disputes wm lim ctx data.disputes)) h1W h1L
  obtain ⟨h3W, h3L⟩ := fitUnder_bound (fun p => wm.candidateW p.1) (fun p => wm.candidateLen p.1)
    lim.maxWeight lim.maxLen
    (sanitize_backed_candidates ctx data.backed_candidates).backed_candidates_with_core
    (sumWeights wm.disputeW (limited_disputes wm lim ctx data.disputes) +
      sumWeights wm.bitfieldW (limited_bitfields wm lim ctx
        (sumWeights wm.disputeW (limited_disputes wm lim ctx data.disputes))
        (sumLens wm.disputeLen (limited_disputes wm lim ctx data.disputes)) data.bitfields))
    (sumLens wm.disputeLen (limited_disputes wm lim ctx data.disputes) +
      sumLens wm.bitfieldLen (limited_bitfields wm lim ctx
        (sumWeights wm.disputeW (limited_disputes wm lim ctx data.disputes))
        (sumLens wm.disputeLen (limited_disputes wm lim ctx data.disputes)) data.bitfields))
    h2W h2L
  constructor
  · show multi_dispute_statement_sets_weight wm (create_inherent_inner wm lim ctx data).disputes +
      signed_bitfields_weight wm (create_inherent_inner wm lim ctx data).bitfields +
      backed_candidates_weight wm (create_inherent_inner wm lim ctx data).backed_candidates ≤
        lim.maxWeight
    show sumWeights wm.disputeW (limited_disputes wm lim ctx data.disputes) +
      sumWeights wm.bitfieldW (limited_bitfields wm lim ctx
        (sumWeights wm.disputeW (limited_disputes wm lim ctx data.disputes))
        (sumLens wm.disputeLen (limited_disputes wm lim ctx data.disputes)) data.bitfields) +
      sumWeights wm.candidateW ((limited_candidates wm lim ctx
        (sumWeights wm.disputeW (limited_disputes wm lim ctx data.disputes) +
          sumWeights wm.bitfieldW (limited_bitfields wm lim ctx
            (sumWeights wm.disputeW (limited_disputes wm lim ctx data.disputes))
            (sumLens wm.disputeLen (limited_disputes wm lim ctx data.disputes)) data.bitfields))
        (sumLens wm.disputeLen (limited_disputes wm lim ctx data.disputes) +
          sumLens wm.bitfieldLen (limited_bitfields wm lim ctx
            (sumWeights wm.disputeW (limited_disputes wm lim ctx data.disputes))
            (sumLens wm.disputeLen (limited_disputes wm lim ctx data.disputes)) data.bitfields))
        data.backed_candidates).map Prod.fst) ≤ lim.maxWeight
    rw [sumWeights_map]
    exact h3W
  · show sumLens wm.disputeLen (limited_disputes wm lim ctx data.disputes) +
      sumLens wm.bitfieldLen (limited_bitfields wm lim ctx
        (sumWeights wm.disputeW (limited_disputes wm lim ctx data.disputes))
        (sumLens wm.disputeLen (limited_disputes wm lim ctx data.disputes)) data.bitfields) +
      sumLens wm.candidateLen ((limited_candidates wm lim ctx
        (sumWeights wm.disputeW (limited_disputes wm lim ctx data.disputes) +
          sumWeights wm.bitfieldW (limited_bitfields wm lim ctx
            (sumWeights wm.disputeW (limited_disputes wm lim ctx data.disputes))
            (sumLens wm.disputeLen (limited_disputes wm lim ctx data.disputes)) data.bitfields))
        (sumLens wm.disputeLen (limited_disputes wm lim ctx data.disputes) +
          sumLens wm.bitfieldLen (limited_bitfields wm lim ctx
            (sumWeights wm.disputeW (limited_disputes wm lim ctx data.disputes))
            (sumLens wm.disputeLen (limited_disputes wm lim ctx data.disputes)) data.bitfields))
        data.backed_candidates).map Prod.fst) ≤ lim.maxLen
    rw [sumLens_map]
    exact h3L

end ParasInherent

namespace ParasInherent

/-- C2: whenever create_inherent_inner truncates the payload to fit the
budget, every dispute statement set included in the output has a session
index no greater than the session index of every excluded dispute set
(oldest sessions first: the included disputes are an initial segment of the
session-sorted survivors), bitfields are fitted into the budget left by the
disputes alone before any backed candidate is considered, and a payload
whose disputes and bitfields exhaust the budget yields all fitting
bitfields and zero backed candidates. -/
theorem claim_c2_priority_ordering :
    ∀ (wm : WeightModel) (lim : Limits) (ctx : Context) (data : ParachainsInherentData),
      (∃ excluded,
        sortBySession (filter_future_disputes ctx.currentSession data.disputes) =
          (create_inherent_inner wm lim ctx data).disputes ++ excluded ∧
        ∀ d ∈ (create_inherent_inner wm lim ctx data).disputes,
          ∀ e ∈ excluded, d.session ≤ e.session) ∧
      (create_inherent_inner wm lim ctx data).bitfields =
        limited_bitfields wm lim ctx
          (sumWeights wm.disputeW (create_inherent_inner wm lim ctx data).disputes)
          (sumLens wm.disputeLen (create_inherent_inner wm lim ctx data).disputes)
          data.bitfields ∧
      ((∀ p ∈ (sanitize_backed_candidates ctx data.backed_candidates).backed_candidates_with_core,
          ¬ (sumWeights wm.disputeW (create_inherent_inner wm lim ctx data).disputes +
              sumWeights wm.bitfieldW (create_inherent_inner wm lim ctx data).bitfields +
              wm.candidateW p.1 ≤ lim.maxWeight ∧
            sumLens wm.disputeLen (create_inherent_inner wm lim ctx data).disputes +
              sumLens wm.bitfieldLen (create_inherent_inner wm lim ctx data).bitfields +
              wm.candidateLen p.1 ≤ lim.maxLen)) →
        (create_inherent_inner wm lim ctx data).backed_candidates = []) := by
  intro wm lim ctx data
  refine ⟨?_, rfl, ?_⟩
  · obtain ⟨t, ht⟩ := fitUnder_eq_append wm.disputeW wm.disputeLen lim.maxWeight lim.maxLen
      (sortBySession (filter_future_disputes ctx.currentSession data.disputes)) ⟨0, 0⟩ 0
    refine ⟨t, ht, ?_⟩
    intro d hd e he
    have hp := pairwise_sortBySession (filter_future_disputes ctx.currentSession data.disputes)
    rw [ht] at hp
    exact (List.pairwise_append.mp hp).2.2 d hd e he
  · intro h
    show (limited_candidates wm lim ctx
        (sumWeights wm.disputeW (limited_disputes wm lim ctx data.disputes) +
          sumWeights wm.bitfieldW (limited_bitfields wm lim ctx
            (sumWeights wm.disputeW (limited_disputes wm lim ctx data.disputes))
            (sumLens wm.disputeLen (limited_disputes wm lim ctx data.disputes)) data.bitfields))
        (sumLens wm.disputeLen (limited_disputes wm lim ctx data.disputes) +
          sumLens wm.bitfieldLen (limited_bitfields wm lim ctx
            (sumWeights wm.disputeW (limited_disputes wm lim ctx data.disputes))
            (sumLens wm.disputeLen (limited_disputes wm lim ctx data.disputes)) data.bitfields))
        data.backed_candidates).map Prod.fst = []
    rw [limited_candidates]
    cases hc : (sanitize_backed_candidates ctx data.backed_candidates).backed_candidates_with_core with
    | nil => rw [fitUnder]; rfl
    | cons p t =>
      rw [fitUnder]
      split
      · rename_i hcond
        exact absurd hcond (h p (by rw [hc]; exact List.mem_cons_self p t))
      · rfl

end ParasInherent

namespace ParasInherent

/-- C3: if the inherent payload passed to the enter entry point still
exceeds the block weight or length ceiling after full filtering, enter
fails with the fatal InherentOverweight dispatch error and the block is
rejected outright rather than partially accepted. -/
theorem claim_c3_overweight_rejected (wm : WeightModel) (lim : Limits) (ctx : Context)
    (data : ParachainsInherentData)
    (h : ¬ (paras_inherent_total_weight wm (enter_filtered wm lim ctx data) ≤ lim.maxWeight ∧
        paras_inherent_total_len wm (enter_filtered wm lim ctx data) ≤ lim.maxLen)) :
    enter wm lim ctx data = Except.error DispatchError.InherentOverweight := by
  rw [enter, if_neg h]

/-- Witness for C3 at a concrete overweight payload: one valid bitfield
whose assigned cost exceeds the small ceilings survives filtering, so enter
rejects the block with InherentOverweight. -/
theorem claim_c3_overweight_rejected_witness :
    enter wmC limC ctxC dataC = Except.error DispatchError.InherentOverweight :=
  claim_c3_overweight_rejected wmC limC ctxC dataC (by decide)

/-- Counterexample to C4 as stated: the first submission passes the length,
index-range and signature checks and has a set bit on the disputed core 0,
yet the sanitizer output keeps only the third submission; nothing with the
disputed bit cleared is kept, so submissions are dropped, not zeroed. -/
theorem claim_c4_zeroing_counterexample :
    sanitize_bitfields chkX [c0x, c1x, c2x] [true, false] 2 [10, 11, 12] = [c2x] ∧
    c0x.bits.length = 2 ∧ c0x.validator_index < 3 ∧ chkX c0x 10 = true := by decide

/-- C4 amended: for every bitfield submission, the sanitizer drops any
submission that has a set bit on a core marked in the disputed-core mask;
every surviving submission has no set bit on a disputed core and is kept
with its payload unchanged, in submission order. -/
theorem claim_c4_amended_disputed_cores_dropped :
    ∀ (chk : UncheckedBitfield → Nat → Bool) (unchecked : List UncheckedBitfield)
      (disputed : List Bool) (expectedBits : Nat) (validators : List Nat),
      (∀ b ∈ sanitize_bitfields chk unchecked disputed expectedBits validators,
        hasDisputedBit b.bits disputed = false) ∧
      (sanitize_bitfields chk unchecked disputed expectedBits validators).Sublist unchecked := by
  intro chk unchecked disputed expectedBits validators
  rw [sanitize_bitfields]
  split
  · simp
  · exact ⟨fun b hb => (sanitize_go_checked chk disputed expectedBits validators
      unchecked none b hb).1,
      sanitize_go_sublist chk disputed expectedBits validators unchecked none⟩

/-- Counterexample to C5 as stated: with core-index tagging inactive, para 1
has two scheduled cores and supplies one backed candidate, yet the candidate
sanitizer drops it instead of assigning the first scheduled core. -/
theorem claim_c5_multicore_counterexample :
    map_candidates_to_cores false [(1, [0, 1])] [p1a] = [] ∧
    lookupCores [(1, [0, 1])] p1a.para_id = some [0, 1] := by decide

/-- C5 amended: when explicit core-index tagging is inactive, a backed
candidate is kept only when its para has exactly one remaining scheduled
core, and is then assigned that core, consuming it; a candidate whose para
has zero or several remaining scheduled cores, or no schedule entry, is
dropped. In particular the multi-core test schedule keeps only the para 3
candidate on core 4 and the first para 4 candidate on core 5. -/
theorem claim_c5_amended_core_assignment :
    (∀ (scheduled : List (Nat × List Nat)) (c : BackedCandidate)
        (rest : List BackedCandidate) (k : Nat),
      lookupCores scheduled c.para_id = some [k] →
        map_candidates_to_cores false scheduled (c :: rest) =
          (c, k) :: map_candidates_to_cores false
            (adjustCores scheduled c.para_id (fun _ => [])) rest) ∧
    (∀ (scheduled : List (Nat × List Nat)) (c : BackedCandidate)
        (rest : List BackedCandidate) (cores : List Nat),
      lookupCores scheduled c.para_id = some cores → cores.length ≠ 1 →
        map_candidates_to_cores false scheduled (c :: rest) =
          map_candidates_to_cores false scheduled rest) ∧
    (∀ (scheduled : List (Nat × List Nat)) (c : BackedCandidate)
        (rest : List BackedCandidate),
      lookupCores scheduled c.para_id = none →
        map_candidates_to_cores false scheduled (c :: rest) =
          map_candidates_to_cores false scheduled rest) ∧
    map_candidates_to_cores false sched5 [p1a, p1b, p2a, p3a, p4a, p4b] =
      [(p3a, 4), (p4a, 5)] := by
  refine ⟨?_, ?_, ?_, by decide⟩
  · intro scheduled c rest k h
    simp only [map_candidates_to_cores]
    rw [h]
    rfl
  · intro scheduled c rest cores h hlen
    rcases cores with _ | ⟨a, _ | ⟨b, u⟩⟩
    · simp only [map_candidates_to_cores]
      rw [h]
      rfl
    · exact absurd rfl hlen
    · simp only [map_candidates_to_cores]
      rw [h]
      rfl
  · intro scheduled c rest h
    simp only [map_candidates_to_cores]
    rw [h]

end ParasInherent

namespace ParasInherent

/-- C6: the dispute sanitizer drops exactly the dispute statement sets whose
session index exceeds the current session, keeping the rest in order,
regardless of available weight; in particular, with current session 2 and
input disputes at sessions 1, 2 and 3, exactly the session-3 set is removed
and the sets at sessions 1 and 2 remain in order in the payload produced by
create_inherent_inner under generous ceilings. -/
theorem claim_c6_future_session_filter :
    (∀ (current : Nat) (l : List DisputeStatementSet) (d : DisputeStatementSet),
      d ∈ filter_future_disputes current l ↔ d ∈ l ∧ d.session ≤ current) ∧
    (∀ (current : Nat) (l : List DisputeStatementSet),
      (filter_future_disputes current l).Sublist l) ∧
    (create_inherent_inner wm6 lim6 ctx6 ⟨[], [], [d1, d2, d3]⟩).disputes = [d1, d2] := by
  refine ⟨?_, ?_, by decide⟩
  · intro current l d
    simp [filter_future_disputes, List.mem_filter]
  · intro current l
    exact List.filter_sublist l

/-- Counterexample to C7 as stated: a submission whose own bit length
differs from the expected core count does not empty the whole batch; here
the wrong-length first submission is dropped while the well-formed second
submission is kept. -/
theorem claim_c7_batchwide_counterexample :
    sanitize_bitfields chkX [cbadLen, c1x] [false, false] 2 [10, 11, 12] = [c1x] ∧
    cbadLen.bits.length ≠ 2 := by decide

/-- C7 amended: the overall expected-length check compares the disputed-core
mask against the expected core count and, when violated, empties the whole
batch; a submission whose own bit length differs from the expected count is
invalidated individually, with no effect on the other submissions, and every
surviving submission has the expected bit length. -/
theorem claim_c7_amended_length_checks :
    ∀ (chk : UncheckedBitfield → Nat → Bool) (unchecked : List UncheckedBitfield)
      (disputed : List Bool) (expectedBits : Nat) (validators : List Nat),
      (disputed.length ≠ expectedBits →
        sanitize_bitfields chk unchecked disputed expectedBits validators = []) ∧
      sanitize_bitfields chk unchecked disputed expectedBits validators =
        sanitize_bitfields chk (unchecked.filter (fun b => b.bits.length == expectedBits))
          disputed expectedBits validators ∧
      (∀ b ∈ sanitize_bitfields chk unchecked disputed expectedBits validators,
        b.bits.length = expectedBits) := by
  intro chk unchecked disputed expectedBits validators
  refine ⟨?_, ?_, ?_⟩
  · intro h
    rw [sanitize_bitfields, if_pos h]
  · by_cases h : disputed.length ≠ expectedBits
    · rw [sanitize_bitfields, if_pos h, sanitize_bitfields, if_pos h]
    · rw [sanitize_bitfields, if_neg h, sanitize_bitfields, if_neg h]
      exact sanitize_go_filter_length chk disputed expectedBits validators unchecked none
  · rw [sanitize_bitfields]
    split
    · simp
    · exact fun b hb => (sanitize_go_checked chk disputed expectedBits validators
        unchecked none b hb).2

/-- Counterexample to C8 as stated: with validator 2 disabled and threshold
2, a candidate backed by one vote from the non-disabled validator 0 has no
votes from disabled validators, yet it is removed rather than left
unchanged, because its vote count is below the threshold. -/
theorem claim_c8_unchanged_counterexample :
    (filter_backed_statements_from_disabled_validators [2] 2 [(c8cand, 0)]).1 = [] ∧
    (∀ v ∈ c8cand.votes, v ∉ [2]) := by decide

/-- C8 amended: stripping disabled-validator votes never removes a candidate
whose remaining vote count is at least the minimum-backing-votes threshold
(it is kept with the reduced vote set), always removes a candidate whose
remaining vote count falls below the threshold (everything kept meets the
threshold, and every kept entry is the stripped form of an input entry), and
leaves the vote set of a candidate with no votes from disabled validators
unchanged, though such a candidate too is dropped when its vote count is
below the threshold. -/
theorem claim_c8_amended_disabled_vote_law :
    ∀ (disabled : List Nat) (minVotes : Nat) (l : List (BackedCandidate × Nat)),
      (∀ p ∈ l, minVotes ≤ (stripDisabledVotes disabled p.1).votes.length →
        (stripDisabledVotes disabled p.1, p.2) ∈
          (filter_backed_statements_from_disabled_validators disabled minVotes l).1) ∧
      (∀ p ∈ (filter_backed_statements_from_disabled_validators disabled minVotes l).1,
        minVotes ≤ p.1.votes.length) ∧
      (∀ p ∈ (filter_backed_statements_from_disabled_validators disabled minVotes l).1,
        ∃ q ∈ l, p = (stripDisabledVotes disabled q.1, q.2)) ∧
      (∀ c : BackedCandidate, (∀ v ∈ c.votes, v ∉ disabled) →
        stripDisabledVotes disabled c = c) := by
  intro disabled minVotes l
  refine ⟨?_, ?_, ?_, ?_⟩
  · intro p hp hmin
    simp only [filter_backed_statements_from_disabled_validators]
    rw [List.mem_filter]
    constructor
    · exact List.mem_map.mpr ⟨p, hp, rfl⟩
    · simpa using hmin
  · intro p hp
    simp only [filter_backed_statements_from_disabled_validators] at hp
    rw [List.mem_filter] at hp
    simpa using hp.2
  · intro p hp
    simp only [filter_backed_statements_from_disabled_validators] at hp
    rw [List.mem_filter] at hp
    obtain ⟨q, hq, hq2⟩ := List.mem_map.mp hp.1
    exact ⟨q, hq, hq2.symm⟩
  · intro c hc
    have : c.votes.filter (fun v => ! decide (v ∈ disabled)) = c.votes := by
      rw [List.filter_eq_self]
      intro v hv
      simpa using hc v hv
    cases c
    simp only [stripDisabledVotes] at *
    rw [this]

/-- C9: if two bitfield submissions that survive the structural and
signature checks claim the same validator index, sanitization keeps only
the first one in submission order and drops the later one(s): the output
carries pairwise distinct validator indices and is an order-preserving
subsequence of the input; moreover a submission whose validator index is
at most that of a submission kept from the preceding input is dropped with
no effect at all, the output being the one of the input without it; and
concretely, of two valid same-index submissions with different payloads it
is the first that survives, in either order. -/
theorem claim_c9_dedup_by_validator_index :
    (∀ (chk : UncheckedBitfield → Nat → Bool) (unchecked : List UncheckedBitfield)
      (disputed : List Bool) (expectedBits : Nat) (validators : List Nat),
      ((sanitize_bitfields chk unchecked disputed expectedBits validators).map
        (fun b => b.validator_index)).Nodup ∧
      (sanitize_bitfields chk unchecked disputed expectedBits validators).Sublist unchecked) ∧
    (∀ (chk : UncheckedBitfield → Nat → Bool) (disputed : List Bool)
      (expectedBits : Nat) (validators : List Nat)
      (front : List UncheckedBitfield) (b₁ b₂ : UncheckedBitfield)
      (tail : List UncheckedBitfield),
      b₂.validator_index ≤ b₁.validator_index →
      b₁ ∈ sanitize_bitfields chk front disputed expectedBits validators →
      sanitize_bitfields chk (front ++ b₂ :: tail) disputed expectedBits validators =
        sanitize_bitfields chk (front ++ tail) disputed expectedBits validators) ∧
    sanitize_bitfields chkX [c2x, c2y] [false, false] 2 [10, 11, 12] = [c2x] ∧
    sanitize_bitfields chkX [c2y, c2x] [false, false] 2 [10, 11, 12] = [c2y] := by
  refine ⟨?_, ?_, by decide, by decide⟩
  · intro chk unchecked disputed expectedBits validators
    rw [sanitize_bitfields]
    split
    · simp
    · constructor
      · have hp := (sanitize_go_ascending chk disputed expectedBits validators unchecked none).1
        exact List.Pairwise.map _ (fun a b h => Nat.ne_of_lt h) hp
      · exact sanitize_go_sublist chk disputed expectedBits validators unchecked none
  · intro chk disputed expectedBits validators front b₁ b₂ tail hle hb₁
    by_cases hm : disputed.length ≠ expectedBits
    · rw [sanitize_bitfields, if_pos hm, sanitize_bitfields, if_pos hm]
    · rw [sanitize_bitfields, if_neg hm] at hb₁
      rw [sanitize_bitfields, if_neg hm, sanitize_bitfields, if_neg hm]
      obtain ⟨j, hj, hbj⟩ :=
        sanitize_go_last_bound chk disputed expectedBits validators front none b₁ hb₁
      rw [sanitize_go_append chk disputed expectedBits validators front (b₂ :: tail) none,
        sanitize_go_append chk disputed expectedBits validators front tail none, hj]
      exact congrArg (sanitize_bitfields_go chk disputed expectedBits validators none front ++ ·)
        (sanitize_go_skip_le chk disputed expectedBits validators b₂ tail j
          (Nat.le_trans hle hbj))

/-- C10: the bitfield sanitizer accepts a submission only if its claimed
validator index is strictly greater than that of every previously accepted
submission: the survivors carry strictly ascending validator indices in
submission order, and a concrete well-formed, well-signed bitfield with a
lower index than an already accepted one is dropped. -/
theorem claim_c10_ascending_validator_indices :
    (∀ (chk : UncheckedBitfield → Nat → Bool) (unchecked : List UncheckedBitfield)
      (disputed : List Bool) (expectedBits : Nat) (validators : List Nat),
      List.Pairwise (fun a b => a.validator_index < b.validator_index)
        (sanitize_bitfields chk unchecked disputed expectedBits validators) ∧
      (sanitize_bitfields chk unchecked disputed expectedBits validators).Sublist unchecked) ∧
    sanitize_bitfields chkX [c2x, c0x] [false, false] 2 [10, 11, 12] = [c2x] := by
  refine ⟨?_, by decide⟩
  intro chk unchecked disputed expectedBits validators
  rw [sanitize_bitfields]
  split
  · simp
  · exact ⟨(sanitize_go_ascending chk disputed expectedBits validators unchecked none).1,
      sanitize_go_sublist chk disputed expectedBits validators unchecked none⟩

end ParasInherent
